import Mathlib

/-!
Verification development for the `fit` disk-packing utility and its string
helpers (`src/fit.c`, `src/utils.c`).

The C data structures and functions are shallowly embedded:

* `struct file_info` (src/fit.c:57) becomes `FileInfo`; `off_t` sizes are
  modelled as `Int` (a 64-bit signed type in the source).
* `struct disk` (src/fit.c:87) becomes `Disk`; the file vector is a `List`
  in append order (`vector_add` appends at the end).
* The static `id` counter inside `disk_new` (src/fit.c:96) is threaded
  explicitly through the packing state as the number of disks created so far.
* Functions that call `errx`/`err` and terminate the process are modelled as
  `Option`-valued: `none` is the fatal-error exit.
* The comparator `by_file_size_descending` (src/fit.c:220) returns `int`
  while the operands are `off_t`; the implicit 64-bit to 32-bit conversion is
  modelled by `wrap32` (two's-complement wrap-around, the behaviour of the
  compilers the code targets).
* `qsort` (src/fit.c:241) is modelled by `List.insertionSort` over the
  comparator's "not greater" relation.  The C standard leaves the relative
  order of elements that compare equal unspecified, so nothing proved below
  about tie order is attributed to `qsort` itself.
* `number_to_string` (src/utils.c:145) operates on `double`; it is modelled
  over `ℚ`.  For integral byte counts the branch decisions of the loop are
  the same for `double` and exact arithmetic (the comparisons `number > 1000`
  are never within rounding error of the boundary for integer inputs), so the
  unit index and decimal count modelled here match the C program on the
  integral inputs the program feeds it.
* C strings are modelled as `List Char` (the source strings never contain a
  NUL byte).
-/

/-- `struct file_info` (src/fit.c:57): the size and the name of a file. -/
structure FileInfo where
  name : String
  size : Int
deriving DecidableEq, Repr

/-- `struct disk` (src/fit.c:87): a vector of files, remaining free space,
and the disk's id. -/
structure Disk where
  files : List FileInfo
  free : Int
  id : Nat
deriving DecidableEq, Repr

/-- `disk_new` (src/fit.c:94).  The static counter is passed explicitly:
`id` is the value `++id` produced for this disk. -/
def disk_new (size : Int) (id : Nat) : Disk :=
  { files := [], free := size, id := id }

/-- `disk_add_file` (src/fit.c:120): reject the file if `free - size < 0`,
otherwise append it to the disk's file vector and decrement `free`.
`none` models the `return 0` branch, `some` the mutated disk. -/
def disk_add_file (disk : Disk) (file_info : FileInfo) : Option Disk :=
  if disk.free - file_info.size < 0 then
    none
  else
    some { disk with
             files := disk.files ++ [file_info],
             free := disk.free - file_info.size }

/-- Conversion of a 64-bit value to a 32-bit signed `int` by
two's-complement wrap-around. -/
def wrap32 (n : Int) : Int :=
  (n + 2 ^ 31) % 2 ^ 32 - 2 ^ 31

/-- `by_file_size_descending` (src/fit.c:220): `return b->size - a->size;`.
The subtraction is performed on `off_t` (64-bit) and then converted to the
`int` return type, which wraps. -/
def by_file_size_descending (a b : FileInfo) : Int :=
  wrap32 (b.size - a.size)

/-- The `qsort` call of `fit` (src/fit.c:241), modelled as a comparison sort
consistent with the comparator: `a` may precede `b` whenever the comparator
does not order `b` strictly first. -/
def sortFiles (files : List FileInfo) : List FileInfo :=
  files.insertionSort (fun a b => by_file_size_descending a b ≤ 0)

/-- The inner loop of `fit` (src/fit.c:250): scan the disks in creation
order and add the file to the first disk that accepts it.  `none` models
`added == FALSE`. -/
def placeFile : List Disk → FileInfo → Option (List Disk)
  | [], _ => none
  | disk :: rest, file =>
    match disk_add_file disk file with
    | some disk' => some (disk' :: rest)
    | none => (placeFile rest file).map (fun rest' => disk :: rest')

/-- One iteration of the outer loop of `fit` (src/fit.c:244), acting on the
state (disk list, static `disk_new` counter).  If no existing disk accepts
the file, a new disk of the configured size is created, the file is added to
it, and it is appended to the disk list; `none` models the
`errx(1, "disk_add_file failed.")` exit (src/fit.c:269). -/
def fitStep (capacity : Int) (st : List Disk × Nat) (file : FileInfo) :
    Option (List Disk × Nat) :=
  match placeFile st.1 file with
  | some disks' => some (disks', st.2)
  | none =>
    match disk_add_file (disk_new capacity (st.2 + 1)) file with
    | some disk' => some (st.1 ++ [disk'], st.2 + 1)
    | none => none

/-- The outer loop of `fit` (src/fit.c:244) over a list of files. -/
def fitLoop (capacity : Int) (st : List Disk × Nat) :
    List FileInfo → Option (List Disk × Nat)
  | [] => some st
  | file :: rest =>
    match fitStep capacity st file with
    | some st' => fitLoop capacity st' rest
    | none => none

/-- `fit` (src/fit.c:237): sort the files by the comparator, then place each
file in turn, starting from an empty disk list and the zero-initialised
static id counter. -/
def fit (capacity : Int) (files : List FileInfo) : Option (List Disk × Nat) :=
  fitLoop capacity ([], 0) (sortFiles files)

/-- The guard in `main` (src/fit.c:382): `disks->size > 9999` is a fatal
error before any disk is printed or linked. -/
def too_many_disks (disks : List Disk) : Bool :=
  decide (9999 < disks.length)

/-- The guard in `disk_link` (src/fit.c:184): a disk id above 9999 does not
fit the `%04lu` directory-name format and is a fatal error. -/
def disk_link_id_ok (disk : Disk) : Bool :=
  decide (disk.id ≤ 9999)

/-- Total size of the files stored on a disk. -/
def diskSum (d : Disk) : Int :=
  (d.files.map FileInfo.size).sum

/-- Invariant of a single disk with respect to the configured capacity. -/
def DiskOk (capacity : Int) (d : Disk) : Prop :=
  0 ≤ d.free ∧ d.free + diskSum d = capacity

/-- Invariant of the packing state: every disk satisfies `DiskOk`, the disk
ids are `1, 2, ...` in list order, and the static counter equals the number
of disks created. -/
def StOk (capacity : Int) (st : List Disk × Nat) : Prop :=
  (∀ d ∈ st.1, DiskOk capacity d) ∧
    st.1.map Disk.id = List.range' 1 st.1.length ∧ st.2 = st.1.length

/-- The division loop of `number_to_string` (src/utils.c:151):
`for (i = 0; number > KB && i < (int) sizeof(units); ++i) number /= KB;`
with `KB = 1000` and `sizeof(units) = 5`.  `fuel` is the number of loop
iterations still allowed by the `i < 5` bound; the result is the number of
divisions performed, i.e. the final value of `i`. -/
def divCount : Nat → ℚ → Nat
  | 0, _ => 0
  | fuel + 1, number =>
    if 1000 < number then divCount fuel (number / 1000) + 1 else 0

/-- The `units` array of `number_to_string` (src/utils.c:148):
`{ 'b', 'K', 'M', 'G', 'T' }`. -/
def nts_units : List Char := ['b', 'K', 'M', 'G', 'T']

/-- The final value of `i` in `number_to_string` for input `number`. -/
def nts_index (number : ℚ) : Nat := divCount 5 number

/-- The value printed by `number_to_string`: the input divided by `1000`
once per loop iteration. -/
def nts_value (number : ℚ) : ℚ := number / 1000 ^ nts_index number

/-- The unit suffix printed by `number_to_string`: `units[i]`.  `none`
models an out-of-bounds read of the `units` array. -/
def nts_suffix (number : ℚ) : Option Char := nts_units.get? (nts_index number)

/-- The number of decimal places printed by `number_to_string`
(src/utils.c:155): `i == 0 ? 0 : 2`. -/
def nts_decimals (number : ℚ) : Nat := if nts_index number = 0 then 0 else 2

/-- The copying loop of `clean_path` (src/utils.c:175): copy each character,
but after copying a `'/'` skip all immediately following `'/'` characters.
The flag records the inner `while (*path == '/') ++path;` state: it is true
exactly when a `'/'` has just been copied, so that further `'/'` characters
are dropped instead of copied. -/
def squashAux : Bool → List Char → List Char
  | _, [] => []
  | true, c :: rest =>
    if c = '/' then squashAux true rest else c :: squashAux false rest
  | false, c :: rest =>
    if c = '/' then c :: squashAux true rest else c :: squashAux false rest

/-- The full copying loop of `clean_path` (src/utils.c:175), starting
outside a slash run. -/
def squashSlashes (l : List Char) : List Char := squashAux false l

/-- `clean_path` (src/utils.c:165): squash runs of slashes, then strip a
trailing slash unless it is the only character
(`buffer_position > path_buffer + 1 && buffer_position[-1] == '/'`). -/
def clean_path (path : List Char) : List Char :=
  let buf := squashSlashes path
  if 1 < buf.length ∧ buf.getLast? = some '/' then buf.dropLast else buf

/-- No two adjacent characters of the list are both `'/'`. -/
def NoAdjSlash (l : List Char) : Prop :=
  l.Chain' (fun a b => a = '/' → b ≠ '/')

theorem disk_add_file_some_spec {d : Disk} {f : FileInfo} {d' : Disk}
    (h : disk_add_file d f = some d') :
    d'.files = d.files ++ [f] ∧ d'.free = d.free - f.size ∧ d'.id = d.id ∧
      0 ≤ d'.free := by
  by_cases hc : d.free - f.size < 0
  · simp [disk_add_file, hc] at h
  · simp [disk_add_file, hc] at h
    subst h
    refine ⟨rfl, rfl, rfl, ?_⟩
    simp only []
    omega

theorem disk_add_file_none_iff {d : Disk} {f : FileInfo} :
    disk_add_file d f = none ↔ d.free - f.size < 0 := by
  by_cases hc : d.free - f.size < 0 <;> simp [disk_add_file, hc]

theorem diskSum_of_add {d : Disk} {f : FileInfo} {d' : Disk}
    (h : disk_add_file d f = some d') : diskSum d' = diskSum d + f.size := by
  obtain ⟨hfiles, -, -, -⟩ := disk_add_file_some_spec h
  simp [diskSum, hfiles]

theorem DiskOk.of_add {capacity : Int} {d : Disk} {f : FileInfo} {d' : Disk}
    (hok : DiskOk capacity d) (h : disk_add_file d f = some d') :
    DiskOk capacity d' := by
  obtain ⟨-, hfree, -, hfree0⟩ := disk_add_file_some_spec h
  obtain ⟨-, hsum⟩ := hok
  refine ⟨hfree0, ?_⟩
  rw [diskSum_of_add h, hfree]
  omega

theorem placeFile_some_spec {ds : List Disk} {f : FileInfo} {ds' : List Disk}
    (h : placeFile ds f = some ds') :
    ds'.map Disk.id = ds.map Disk.id ∧
      (ds'.flatMap Disk.files).Perm (f :: ds.flatMap Disk.files) ∧
      ∀ capacity, (∀ d ∈ ds, DiskOk capacity d) → ∀ d ∈ ds', DiskOk capacity d := by
  induction ds generalizing ds' with
  | nil => simp [placeFile] at h
  | cons d rest ih =>
    rw [placeFile] at h
    cases hadd : disk_add_file d f with
    | some d2 =>
      rw [hadd] at h
      cases h
      obtain ⟨hfiles, hfree, hid, hfree0⟩ := disk_add_file_some_spec hadd
      refine ⟨by simp [hid], ?_, ?_⟩
      · rw [List.flatMap_cons, List.flatMap_cons, hfiles, List.append_assoc,
          List.singleton_append]
        exact List.perm_middle
      · intro capacity hok e he
        rcases List.mem_cons.mp he with rfl | he
        · exact DiskOk.of_add (hok d (List.mem_cons_self d rest)) hadd
        · exact hok e (List.mem_cons_of_mem d he)
    | none =>
      rw [hadd] at h
      rw [Option.map_eq_some'] at h
      obtain ⟨rest', hpf, rfl⟩ := h
      obtain ⟨hids, hperm, hok⟩ := ih hpf
      refine ⟨by simp [hids], ?_, ?_⟩
      · rw [List.flatMap_cons, List.flatMap_cons]
        exact (hperm.append_left d.files).trans List.perm_middle
      · intro capacity hokds e he
        rcases List.mem_cons.mp he with rfl | he
        · exact hokds e (List.mem_cons_self e rest)
        · exact hok capacity (fun x hx => hokds x (List.mem_cons_of_mem d hx)) e he

theorem fitStep_some_spec {capacity : Int} {st : List Disk × Nat} {f : FileInfo}
    {st' : List Disk × Nat} (h : fitStep capacity st f = some st')
    (hok : StOk capacity st) :
    StOk capacity st' ∧
      (st'.1.flatMap Disk.files).Perm (f :: st.1.flatMap Disk.files) := by
  obtain ⟨hdisks, hids, hcount⟩ := hok
  unfold fitStep at h
  cases hpf : placeFile st.1 f with
  | some ds' =>
    rw [hpf] at h
    cases h
    obtain ⟨hids', hperm, hok'⟩ := placeFile_some_spec hpf
    have hlen : ds'.length = st.1.length := by
      simpa using congrArg List.length hids'
    exact ⟨⟨hok' capacity hdisks, by rw [hids', hlen]; exact hids, by
      rw [hlen]; exact hcount⟩, hperm⟩
  | none =>
    rw [hpf] at h
    cases hadd : disk_add_file (disk_new capacity (st.2 + 1)) f with
    | none => rw [hadd] at h; cases h
    | some d' =>
      rw [hadd] at h
      cases h
      obtain ⟨hfiles, hfree, hid, hfree0⟩ := disk_add_file_some_spec hadd
      have hfiles' : d'.files = [f] := by simpa [disk_new] using hfiles
      have hok' : DiskOk capacity d' := by
        refine ⟨hfree0, ?_⟩
        rw [diskSum_of_add hadd]
        simp [disk_new, diskSum] at hfree ⊢
        omega
      refine ⟨⟨?_, ?_, ?_⟩, ?_⟩
      · intro e he
        rcases List.mem_append.mp he with he | he
        · exact hdisks e he
        · rw [List.mem_singleton.mp he]; exact hok'
      · rw [List.map_append, hids, List.map_singleton, hid]
        simp only [disk_new, List.length_append, List.length_singleton]
        rw [List.range'_concat, hcount]
        simp [Nat.add_comm]
      · simp [hcount]
      · rw [List.flatMap_append, List.flatMap_cons, List.flatMap_nil,
          List.append_nil, hfiles']
        simp

theorem fitLoop_some_spec {capacity : Int} {files : List FileInfo} :
    ∀ {st st' : List Disk × Nat}, fitLoop capacity st files = some st' →
      StOk capacity st →
      StOk capacity st' ∧
        (st'.1.flatMap Disk.files).Perm (files ++ st.1.flatMap Disk.files) := by
  induction files with
  | nil =>
    intro st st' h hok
    rw [fitLoop] at h
    cases h
    exact ⟨hok, by simp⟩
  | cons f rest ih =>
    intro st st' h hok
    rw [fitLoop] at h
    cases hstep : fitStep capacity st f with
    | none => rw [hstep] at h; cases h
    | some st1 =>
      rw [hstep] at h
      obtain ⟨hok1, hperm1⟩ := fitStep_some_spec hstep hok
      obtain ⟨hok', hperm'⟩ := ih h hok1
      refine ⟨hok', ?_⟩
      rw [List.cons_append]
      exact hperm'.trans ((hperm1.append_left rest).trans List.perm_middle)

theorem fitLoop_isSome {capacity : Int} {files : List FileInfo}
    (hsz : ∀ f ∈ files, f.size ≤ capacity) :
    ∀ st : List Disk × Nat, (fitLoop capacity st files).isSome = true := by
  induction files with
  | nil => intro st; rw [fitLoop]; rfl
  | cons f rest ih =>
    intro st
    rw [fitLoop]
    cases hstep : fitStep capacity st f with
    | some st' => exact ih (fun g hg => hsz g (List.mem_cons_of_mem f hg)) st'
    | none =>
      exfalso
      unfold fitStep at hstep
      cases hpf : placeFile st.1 f with
      | some ds' => rw [hpf] at hstep; cases hstep
      | none =>
        rw [hpf] at hstep
        cases hadd : disk_add_file (disk_new capacity (st.2 + 1)) f with
        | some d' => rw [hadd] at hstep; cases hstep
        | none =>
          have hlt := disk_add_file_none_iff.mp hadd
          have hle := hsz f (List.mem_cons_self f rest)
          simp [disk_new] at hlt
          omega

theorem mem_sortFiles {f : FileInfo} {files : List FileInfo} :
    f ∈ sortFiles files ↔ f ∈ files :=
  (List.perm_insertionSort _ files).mem_iff

theorem fit_some_spec {capacity : Int} {files : List FileInfo}
    {disks : List Disk} {k : Nat} (h : fit capacity files = some (disks, k)) :
    (∀ d ∈ disks, DiskOk capacity d) ∧
      disks.map Disk.id = List.range' 1 disks.length ∧ k = disks.length ∧
      (disks.flatMap Disk.files).Perm files := by
  have hinit : StOk capacity (([], 0) : List Disk × Nat) := by
    refine ⟨by simp, by simp, rfl⟩
  obtain ⟨⟨hok, hids, hcount⟩, hperm⟩ := fitLoop_some_spec h hinit
  refine ⟨hok, hids, hcount, ?_⟩
  simp only [List.flatMap_nil, List.append_nil] at hperm
  exact hperm.trans (List.perm_insertionSort _ files)

/-- Claim C1: for every input file list whose sizes are all between 0 and the
capacity, every disk of the packer's output satisfies
`sum of file sizes ≤ capacity`; a disk's `free` field starts at the capacity
(`disk_new`), every successful `disk_add_file` keeps `free ≥ 0` and (for a
non-negative size) does not increase it, and in the output
`free = capacity - sum ≥ 0`. -/
theorem fit_capacity_invariant (capacity : Int) (files : List FileInfo)
    (disks : List Disk) (k : Nat)
    (hsizes : ∀ f ∈ files, 0 ≤ f.size ∧ f.size ≤ capacity)
    (hrun : fit capacity files = some (disks, k)) :
    (∀ i : Nat, (disk_new capacity i).free = capacity) ∧
      (∀ (d : Disk) (f : FileInfo) (d' : Disk), disk_add_file d f = some d' →
        0 ≤ d'.free ∧ (0 ≤ f.size → d'.free ≤ d.free)) ∧
      (∀ d ∈ disks,
        diskSum d ≤ capacity ∧ 0 ≤ d.free ∧ d.free + diskSum d = capacity) := by
  have hok := (fit_some_spec hrun).1
  refine ⟨fun _ => rfl, ?_, ?_⟩
  · intro d f d' hadd
    obtain ⟨-, hfree, -, hfree0⟩ := disk_add_file_some_spec hadd
    exact ⟨hfree0, fun hf => by omega⟩
  · intro d hd
    obtain ⟨hfree0, hsum⟩ := hok d hd
    exact ⟨by omega, hfree0, hsum⟩

/-- Witness for C1 at capacity 8 and files of sizes 3 and 5. -/
theorem fit_capacity_invariant_witness :
    (∀ i : Nat, (disk_new 8 i).free = 8) ∧
      (∀ (d : Disk) (f : FileInfo) (d' : Disk), disk_add_file d f = some d' →
        0 ≤ d'.free ∧ (0 ≤ f.size → d'.free ≤ d.free)) ∧
      (∀ d ∈ [Disk.mk [FileInfo.mk "b" 5, FileInfo.mk "a" 3] 0 1],
        diskSum d ≤ 8 ∧ 0 ≤ d.free ∧ d.free + diskSum d = 8) :=
  fit_capacity_invariant 8 [⟨"a", 3⟩, ⟨"b", 5⟩]
    [⟨[⟨"b", 5⟩, ⟨"a", 3⟩], 0, 1⟩] 1 (by decide) (by rfl)

/-- Claim C2: whenever the packer completes, the concatenation of all disks'
file lists is a permutation of the input file list: every input file record
is on exactly one disk, none omitted, none duplicated. -/
theorem fit_places_every_file_once (capacity : Int) (files : List FileInfo)
    (disks : List Disk) (k : Nat)
    (hrun : fit capacity files = some (disks, k)) :
    (disks.flatMap Disk.files).Perm files :=
  (fit_some_spec hrun).2.2.2

/-- Witness for C2 at capacity 8 and files of sizes 3 and 5. -/
theorem fit_places_every_file_once_witness :
    ((([⟨[⟨"b", 5⟩, ⟨"a", 3⟩], 0, 1⟩] : List Disk).flatMap Disk.files)).Perm
      [⟨"a", 3⟩, ⟨"b", 5⟩] :=
  fit_places_every_file_once 8 [⟨"a", 3⟩, ⟨"b", 5⟩]
    [⟨[⟨"b", 5⟩, ⟨"a", 3⟩], 0, 1⟩] 1 (by rfl)

/-- Claim C5: if every file's size is at most the capacity, adding a file to
a freshly created disk always succeeds, and the whole packing run never
reaches the fatal `errx(1, "disk_add_file failed.")` branch (the run
produces a result). -/
theorem fresh_disk_add_never_fails (capacity : Int) (files : List FileInfo)
    (i : Nat) (hsizes : ∀ f ∈ files, f.size ≤ capacity) :
    (∀ f : FileInfo, f.size ≤ capacity →
      (disk_add_file (disk_new capacity i) f).isSome = true) ∧
      (fit capacity files).isSome = true := by
  constructor
  · intro f hf
    cases hadd : disk_add_file (disk_new capacity i) f with
    | some d' => rfl
    | none =>
      exfalso
      have hlt := disk_add_file_none_iff.mp hadd
      simp [disk_new] at hlt
      omega
  · unfold fit
    exact fitLoop_isSome (fun f hf => hsizes f (mem_sortFiles.mp hf)) ([], 0)

/-- Witness for C5 at capacity 8 and files of sizes 3 and 5. -/
theorem fresh_disk_add_never_fails_witness :
    (∀ f : FileInfo, f.size ≤ 8 →
      (disk_add_file (disk_new 8 1) f).isSome = true) ∧
      (fit 8 [⟨"a", 3⟩, ⟨"b", 5⟩]).isSome = true :=
  fresh_disk_add_never_fails 8 [⟨"a", 3⟩, ⟨"b", 5⟩] 1 (by decide)

/-- Claim C7: the disks of a completed packing run carry ids `1 .. d` in
creation (= list) order, with no gaps and no reuse, the `i`-th disk of the
output having id `i + 1` (0-based `i`); the final value of the static
counter equals the number of disks. -/
theorem fit_disk_ids_sequential (capacity : Int) (files : List FileInfo)
    (disks : List Disk) (k : Nat)
    (hrun : fit capacity files = some (disks, k)) :
    disks.map Disk.id = List.range' 1 disks.length ∧ k = disks.length ∧
      ∀ (i : Nat) (h : i < disks.length), disks[i].id = i + 1 := by
  obtain ⟨-, hids, hcount, -⟩ := fit_some_spec hrun
  refine ⟨hids, hcount, ?_⟩
  intro i h
  have h5 : (disks.map Disk.id)[i]? = (List.range' 1 disks.length)[i]? := by
    rw [hids]
  have h6 : i < (List.range' 1 disks.length).length := by simpa using h
  rw [List.getElem?_map, List.getElem?_eq_getElem h,
    List.getElem?_eq_getElem h6, List.getElem_range'_1, Option.map_some'] at h5
  have h7 := Option.some.inj h5
  omega

/-- Witness for C7 at capacity 8 and files of sizes 3 and 5. -/
theorem fit_disk_ids_sequential_witness :
    ([⟨[⟨"b", 5⟩, ⟨"a", 3⟩], 0, 1⟩] : List Disk).map Disk.id =
        List.range' 1 ([⟨[⟨"b", 5⟩, ⟨"a", 3⟩], 0, 1⟩] : List Disk).length ∧
      1 = ([⟨[⟨"b", 5⟩, ⟨"a", 3⟩], 0, 1⟩] : List Disk).length ∧
      ∀ (i : Nat) (h : i < ([⟨[⟨"b", 5⟩, ⟨"a", 3⟩], 0, 1⟩] : List Disk).length),
        ([⟨[⟨"b", 5⟩, ⟨"a", 3⟩], 0, 1⟩] : List Disk)[i].id = i + 1 :=
  fit_disk_ids_sequential 8 [⟨"a", 3⟩, ⟨"b", 5⟩]
    [⟨[⟨"b", 5⟩, ⟨"a", 3⟩], 0, 1⟩] 1 (by rfl)

/-- Claim C6: for a completed packing run, the `main` guard
`disks->size > 9999` does not fire at exactly 9999 disks and fires at 10000
or more; and whenever that guard passes, every disk id is at most 9999, so
no disk reaches `disk_link`'s 4-digit format guard. -/
theorem fit_disk_count_guard (capacity : Int) (files : List FileInfo)
    (disks : List Disk) (k : Nat)
    (hrun : fit capacity files = some (disks, k)) :
    (too_many_disks disks = false ↔ disks.length ≤ 9999) ∧
      (disks.length = 9999 → too_many_disks disks = false) ∧
      (10000 ≤ disks.length → too_many_disks disks = true) ∧
      (too_many_disks disks = false → ∀ d ∈ disks, disk_link_id_ok d = true) := by
  have hids := (fit_some_spec hrun).2.1
  have hiff : too_many_disks disks = false ↔ disks.length ≤ 9999 := by
    unfold too_many_disks
    rw [decide_eq_false_iff_not]
    omega
  refine ⟨hiff, fun h9999 => hiff.mpr (by omega), fun h10000 => ?_, ?_⟩
  · unfold too_many_disks
    rw [decide_eq_true_eq]
    omega
  · intro hpass d hd
    have hlen := hiff.mp hpass
    have hmem : d.id ∈ disks.map Disk.id := List.mem_map_of_mem _ hd
    rw [hids, List.mem_range'] at hmem
    obtain ⟨j, hj, hdj⟩ := hmem
    unfold disk_link_id_ok
    rw [decide_eq_true_eq]
    omega

/-- Witness for C6 at capacity 8 and files of sizes 3 and 5. -/
theorem fit_disk_count_guard_witness :
    (too_many_disks [⟨[⟨"b", 5⟩, ⟨"a", 3⟩], 0, 1⟩] = false ↔
        ([⟨[⟨"b", 5⟩, ⟨"a", 3⟩], 0, 1⟩] : List Disk).length ≤ 9999) ∧
      (([⟨[⟨"b", 5⟩, ⟨"a", 3⟩], 0, 1⟩] : List Disk).length = 9999 →
        too_many_disks [⟨[⟨"b", 5⟩, ⟨"a", 3⟩], 0, 1⟩] = false) ∧
      (10000 ≤ ([⟨[⟨"b", 5⟩, ⟨"a", 3⟩], 0, 1⟩] : List Disk).length →
        too_many_disks [⟨[⟨"b", 5⟩, ⟨"a", 3⟩], 0, 1⟩] = true) ∧
      (too_many_disks [⟨[⟨"b", 5⟩, ⟨"a", 3⟩], 0, 1⟩] = false →
        ∀ d ∈ ([⟨[⟨"b", 5⟩, ⟨"a", 3⟩], 0, 1⟩] : List Disk),
          disk_link_id_ok d = true) :=
  fit_disk_count_guard 8 [⟨"a", 3⟩, ⟨"b", 5⟩]
    [⟨[⟨"b", 5⟩, ⟨"a", 3⟩], 0, 1⟩] 1 (by rfl)

/-- Claim C3 (evidence of the code bug): the comparator
`by_file_size_descending` returns `b->size - a->size` truncated to a 32-bit
`int`; for sizes 3000000000 and 0 (both admissible on a 3 GB disk) the
truncated difference has the wrong sign, so the sort places the size-0 file
first — an ascending order, not the descending order the claim (and the
comparator's own name) require. -/
theorem comparator_overflow_breaks_descending :
    sortFiles [⟨"big", 3000000000⟩, ⟨"small", 0⟩] =
        [⟨"small", 0⟩, ⟨"big", 3000000000⟩] ∧
      ¬ ((sortFiles [⟨"big", 3000000000⟩, ⟨"small", 0⟩]).map
          FileInfo.size).Sorted (· ≥ ·) ∧
      by_file_size_descending ⟨"big", 3000000000⟩ ⟨"small", 0⟩ = 1294967296 := by
  refine ⟨by decide, by decide, by decide⟩

/-- Counterexample to claim C8 as stated: a file of size 0 that is processed
while no disk exists yet (here: it is the only file) does force the creation
of a new disk — the run ends with 1 disk, not 0. -/
theorem zero_size_file_creates_first_disk :
    (fit 10 [⟨"a", 0⟩]).map (fun st => st.1.length) = some 1 ∧
      (fit 10 [⟨"a", 0⟩]).map (fun st => st.1.length) ≠ some 0 := by
  exact ⟨rfl, by decide⟩

/-- Claim C8 as amended: a file of size 0 is always placeable — whenever at
least one disk exists (with the non-negative free space the packer
maintains), `fitStep` places it on the first disk and creates no new disk,
leaving free space, disk count and the id counter unchanged — and a disk
whose free space is 0 rejects every file of positive size. -/
theorem zero_size_file_placement (capacity : Int) (d : Disk)
    (rest : List Disk) (k : Nat) (f g : FileInfo) (d2 : Disk)
    (hfree : 0 ≤ d.free) (hf : f.size = 0) (hd2 : d2.free = 0)
    (hg : 0 < g.size) :
    (∃ d' : Disk, fitStep capacity (d :: rest, k) f = some (d' :: rest, k) ∧
      d'.files = d.files ++ [f] ∧ d'.free = d.free ∧ d'.id = d.id) ∧
      disk_add_file d2 g = none := by
  constructor
  · have hnot : ¬ d.free - f.size < 0 := by omega
    refine ⟨{ d with files := d.files ++ [f], free := d.free - f.size },
      ?_, rfl, ?_, rfl⟩
    · simp [fitStep, placeFile, disk_add_file, hnot]
    · show d.free - f.size = d.free
      omega
  · rw [disk_add_file_none_iff]
    omega

/-- Witness for the amended C8 at a disk with free space 5, a size-0 file, a
full disk, and a file of size 3. -/
theorem zero_size_file_placement_witness :
    (∃ d' : Disk,
      fitStep 7 ((⟨[], 5, 1⟩ : Disk) :: [], 1) ⟨"z", 0⟩ = some (d' :: [], 1) ∧
      d'.files = (⟨[], 5, 1⟩ : Disk).files ++ [⟨"z", 0⟩] ∧
      d'.free = (⟨[], 5, 1⟩ : Disk).free ∧ d'.id = (⟨[], 5, 1⟩ : Disk).id) ∧
      disk_add_file ⟨[], 0, 2⟩ ⟨"g", 3⟩ = none :=
  zero_size_file_placement 7 ⟨[], 5, 1⟩ [] 1 ⟨"z", 0⟩ ⟨"g", 3⟩ ⟨[], 0, 2⟩
    (by decide) (by decide) (by decide) (by decide)

theorem divCount_succ (fuel : Nat) (n : ℚ) :
    divCount (fuel + 1) n =
      if 1000 < n then divCount fuel (n / 1000) + 1 else 0 := rfl

theorem divCount_lt_of_le (fuel : Nat) (n : ℚ) (hfuel : 0 < fuel)
    (h : n ≤ 1000 ^ fuel) : divCount fuel n < fuel := by
  induction fuel generalizing n with
  | zero => omega
  | succ m ih =>
    rw [divCount_succ]
    split
    · rename_i hlt
      cases m with
      | zero =>
        exfalso
        rw [pow_one] at h
        exact absurd hlt (not_lt.mpr h)
      | succ m' =>
        have h' : n / 1000 ≤ 1000 ^ (m' + 1) := by
          rw [div_le_iff₀ (by norm_num : (0 : ℚ) < 1000)]
          calc n ≤ 1000 ^ (m' + 2) := h
          _ = 1000 ^ (m' + 1) * 1000 := by ring
        have := ih (n / 1000) (Nat.succ_pos _) h'
        omega
    · omega

theorem nts_index_eq_zero_iff (n : ℚ) : nts_index n = 0 ↔ n ≤ 1000 := by
  unfold nts_index
  rw [show (5 : Nat) = 4 + 1 from rfl, divCount_succ]
  split
  · rename_i hlt
    constructor
    · omega
    · intro hle
      exact absurd hlt (not_lt.mpr hle)
  · rename_i hnlt
    simp only [true_iff]
    exact not_lt.mp hnlt

/-- Claim C9 as amended: for every non-negative byte count up to 10^15, the
formatter's loop divides by 1000 at most 4 times, the selected unit suffix
is in the table `b/K/M/G/T` (lowercase `b` for bytes), the printed value is
the input divided by `1000^i`, and 0 decimal places are used exactly when
the value stayed in the byte range (`n ≤ 1000`, index 0), 2 otherwise. -/
theorem number_to_string_spec (n : ℚ) (h0 : 0 ≤ n) (h15 : n ≤ 10 ^ 15) :
    nts_index n ≤ 4 ∧
      (∃ c, nts_suffix n = some c ∧ c ∈ nts_units) ∧
      nts_value n = n / 1000 ^ nts_index n ∧
      (nts_index n = 0 ↔ n ≤ 1000) ∧
      nts_decimals n = (if n ≤ 1000 then 0 else 2) := by
  have hlt : divCount 5 n < 5 := by
    refine divCount_lt_of_le 5 n (by norm_num) ?_
    calc n ≤ 10 ^ 15 := h15
    _ = 1000 ^ 5 := by norm_num
  have h4 : nts_index n ≤ 4 := by unfold nts_index; omega
  have hzero := nts_index_eq_zero_iff n
  refine ⟨h4, ?_, rfl, hzero, ?_⟩
  · have hlen : nts_index n < nts_units.length := by
      simp only [nts_units, List.length_cons, List.length_nil]
      omega
    refine ⟨nts_units.get ⟨nts_index n, hlen⟩, ?_, List.get_mem _ _ _⟩
    unfold nts_suffix
    exact List.get?_eq_get hlen
  · unfold nts_decimals
    by_cases h : n ≤ 1000
    · rw [if_pos (hzero.mpr h), if_pos h]
    · rw [if_neg (fun hz => h (hzero.mp hz)), if_neg h]

/-- Witness for the amended C9 at byte count 5. -/
theorem number_to_string_spec_witness :
    nts_index 5 ≤ 4 ∧
      (∃ c, nts_suffix 5 = some c ∧ c ∈ nts_units) ∧
      nts_value 5 = 5 / 1000 ^ nts_index 5 ∧
      (nts_index 5 = 0 ↔ (5 : ℚ) ≤ 1000) ∧
      nts_decimals 5 = (if (5 : ℚ) ≤ 1000 then 0 else 2) :=
  number_to_string_spec 5 (by norm_num) (by norm_num)

/-- Counterexample to claim C9 as stated: the suffix for a byte-range count
is the lowercase character `'b'`, not `'B'`; and for a count above 10^15 the
loop runs 5 times and `units[5]` is read out of bounds (no suffix from the
table at all). -/
theorem number_to_string_counterexample :
    nts_suffix 5 = some 'b' ∧ 'b' ∉ ['B', 'K', 'M', 'G', 'T'] ∧
      nts_suffix (10 ^ 16) = none := by
  refine ⟨by decide, by decide, ?_⟩
  have hidx : nts_index (10 ^ 16) = 5 := by
    unfold nts_index
    rw [show (5 : Nat) = 4 + 1 from rfl, divCount_succ,
      if_pos (by norm_num : (1000 : ℚ) < 10 ^ 16),
      show (10 : ℚ) ^ 16 / 1000 = 10 ^ 13 from by norm_num,
      show (4 : Nat) = 3 + 1 from rfl, divCount_succ,
      if_pos (by norm_num : (1000 : ℚ) < 10 ^ 13),
      show (10 : ℚ) ^ 13 / 1000 = 10 ^ 10 from by norm_num,
      show (3 : Nat) = 2 + 1 from rfl, divCount_succ,
      if_pos (by norm_num : (1000 : ℚ) < 10 ^ 10),
      show (10 : ℚ) ^ 10 / 1000 = 10 ^ 7 from by norm_num,
      show (2 : Nat) = 1 + 1 from rfl, divCount_succ,
      if_pos (by norm_num : (1000 : ℚ) < 10 ^ 7),
      show (10 : ℚ) ^ 7 / 1000 = 10 ^ 4 from by norm_num,
      show (1 : Nat) = 0 + 1 from rfl, divCount_succ,
      if_pos (by norm_num : (1000 : ℚ) < 10 ^ 4)]
    rfl
  unfold nts_suffix
  rw [hidx]
  rfl

theorem squashAux_true_head (l : List Char) :
    ∀ y ∈ (squashAux true l).head?, ¬ y = '/' := by
  induction l with
  | nil => simp [squashAux]
  | cons c rest ih =>
    by_cases hc : c = '/'
    · simpa [squashAux, hc] using ih
    · simp [squashAux, hc]

theorem squashAux_noadj (l : List Char) :
    ∀ skip : Bool, NoAdjSlash (squashAux skip l) := by
  induction l with
  | nil => intro skip; cases skip <;> simp [squashAux, NoAdjSlash]
  | cons c rest ih =>
    intro skip
    by_cases hc : c = '/'
    · cases skip with
      | true =>
        simp only [squashAux, if_pos hc]
        exact ih true
      | false =>
        simp only [squashAux, if_pos hc]
        rw [NoAdjSlash, List.chain'_cons']
        refine ⟨?_, ih true⟩
        intro y hy _
        exact squashAux_true_head rest y hy
    · cases skip with
      | true =>
        simp only [squashAux, if_neg hc]
        rw [NoAdjSlash, List.chain'_cons']
        refine ⟨?_, ih false⟩
        intro y _ hcc
        exact absurd hcc hc
      | false =>
        simp only [squashAux, if_neg hc]
        rw [NoAdjSlash, List.chain'_cons']
        refine ⟨?_, ih false⟩
        intro y _ hcc
        exact absurd hcc hc

theorem squash_noadj (l : List Char) : NoAdjSlash (squashSlashes l) :=
  squashAux_noadj l false

theorem squashAux_eq_self : ∀ l : List Char, NoAdjSlash l →
    ∀ skip : Bool, (skip = true → ∀ y ∈ l.head?, ¬ y = '/') →
      squashAux skip l = l := by
  intro l
  induction l with
  | nil => intro _ skip _; cases skip <;> rfl
  | cons c rest ih =>
    intro h skip hskip
    by_cases hc : c = '/'
    · cases skip with
      | true => exact absurd hc (hskip rfl c (by simp))
      | false =>
        simp only [squashAux, if_pos hc]
        congr 1
        refine ih (List.Chain'.tail h) true ?_
        intro _ y hy
        cases rest with
        | nil => simp at hy
        | cons b rest' =>
          simp at hy
          subst hy
          exact (List.chain'_cons.mp h).1 hc
    · cases skip with
      | true =>
        simp only [squashAux, if_neg hc]
        congr 1
        exact ih (List.Chain'.tail h) false (fun hf => nomatch hf)
      | false =>
        simp only [squashAux, if_neg hc]
        congr 1
        exact ih (List.Chain'.tail h) false (fun hf => nomatch hf)

theorem squash_eq_self_of_noadj (l : List Char) (h : NoAdjSlash l) :
    squashSlashes l = l :=
  squashAux_eq_self l h false (fun hf => nomatch hf)

theorem noadj_dropLast {l : List Char} (h : NoAdjSlash l) :
    NoAdjSlash l.dropLast := by
  rw [NoAdjSlash] at h ⊢
  exact List.Chain'.prefix h (List.dropLast_prefix l)

theorem clean_path_noadj (p : List Char) : NoAdjSlash (clean_path p) := by
  have h1 := squash_noadj p
  rw [clean_path]
  by_cases hc : 1 < (squashSlashes p).length ∧
      (squashSlashes p).getLast? = some '/'
  · simp only [if_pos hc]
    exact noadj_dropLast h1
  · simp only [if_neg hc]
    exact h1

theorem clean_path_no_trailing (p : List Char) :
    ¬ (1 < (clean_path p).length ∧ (clean_path p).getLast? = some '/') := by
  have h1 := squash_noadj p
  rw [clean_path]
  by_cases hc : 1 < (squashSlashes p).length ∧
      (squashSlashes p).getLast? = some '/'
  · simp only [if_pos hc]
    rintro ⟨hlen, hlast⟩
    obtain ⟨hlen0, hlast0⟩ := hc
    set s := squashSlashes p with hs
    have hn : 3 ≤ s.length := by
      have := List.length_dropLast s
      omega
    rw [NoAdjSlash, List.chain'_iff_get] at h1
    have hrel := h1 (s.length - 2) (by omega)
    simp only [List.get_eq_getElem] at hrel
    rw [List.getLast?_eq_getElem?] at hlast hlast0
    rw [List.length_dropLast] at hlast
    rw [List.getElem?_eq_getElem (by
      rw [List.length_dropLast]; omega : s.length - 1 - 1 < s.dropLast.length)]
      at hlast
    rw [List.getElem?_eq_getElem (by omega : s.length - 1 < s.length)] at hlast0
    rw [List.getElem_dropLast] at hlast
    have e1 := Option.some.inj hlast
    have e2 := Option.some.inj hlast0
    simp only [show s.length - 1 - 1 = s.length - 2 from by omega] at e1
    simp only [show s.length - 2 + 1 = s.length - 1 from by omega] at hrel
    exact hrel e1 e2
  · simp only [if_neg hc]
    exact hc

/-- Claim C10: `clean_path` is idempotent — applying it to its own output
returns that output unchanged, because one pass already collapses every run
of consecutive `'/'` characters and strips a trailing `'/'` unless it is
the whole path. -/
theorem clean_path_idempotent (p : List Char) :
    clean_path (clean_path p) = clean_path p := by
  have hnoadj := clean_path_noadj p
  have hnt := clean_path_no_trailing p
  have hsq : squashSlashes (clean_path p) = clean_path p :=
    squash_eq_self_of_noadj _ hnoadj
  conv_lhs => rw [clean_path]
  simp only [hsq]
  rw [if_neg hnt]
